import Mathlib

/-!
# Verification of the mini-graphyte risk engine

Shallow embedding of `src/engine.py` (class `MiniGraphyteEngine`) and of the
consumer wiring in `app.py`.  Machine floats are modelled by exact rationals
(`ℚ`); the transcendental `np.log` in the score formula is modelled by
`Real.log`, so the score aggregation lives in `ℝ`/`ℤ`.  Strings are Lean
`String`s, manipulated through their character lists (Python string slicing
and `re` character classes act on characters, ASCII-modelled here).

The trained sklearn objects (`self.model`, `self.vectorizer`) are opaque
collaborators of the engine; they are modelled as function-valued parameters
(`Engine.predict`, `Engine.predict_proba`, `LinearModel.tfidf`), exactly as
the engine code treats them: black boxes producing labels, probability rows,
coefficient matrices and tf-idf vectors.
-/

/-- One retrieved news article, as produced by `fetch_live_news`
(`engine.py` lines 74-81): the dict
`{'headline', 'snippet', 'source', 'date', 'url'}`. -/
structure Article where
  headline : String
  snippet : String
  source : String
  date : String
  url : String
deriving DecidableEq

/-- One evidence item, as built in `analyze_entity` (`engine.py` lines
148-156).  `confidence` is a rational, modelling the Python float. -/
structure EvidenceItem where
  headline : String
  snippet : String
  source : String
  date : String
  url : String
  predicted_risk : String
  confidence : ℚ
deriving DecidableEq

/-- The analysis result dict returned by `analyze_entity`
(`engine.py` lines 118-125 and 168-174). -/
structure AnalysisResult where
  entity : String
  risk_score : ℤ
  top_typologies : List String
  evidence : List EvidenceItem
  summary : String

/-- The trained classifier pair (`self.model`, `self.vectorizer`) as used by
`analyze_entity`: `predict` maps the batch of snippet texts to labels,
`predict_proba` maps it to posterior-probability rows (`engine.py`
lines 136-137). -/
structure Engine where
  predict : List String → List String
  predict_proba : List String → List (List ℚ)

/-- The fitted linear model data used by `explain_prediction`
(`engine.py` lines 200-208): class list, per-class coefficient rows,
feature names, and the vectorizer's tf-idf embedding of a single text. -/
structure LinearModel where
  classes : List String
  coef : List (List ℚ)
  feature_names : List String
  tfidf : String → List ℚ

/-- Python's `\w` character class (ASCII model): alphanumeric or underscore. -/
def isWordChar (c : Char) : Bool := c.isAlphanum || c = '_'

/-- Python's `\s` character class (ASCII model). -/
def isSpaceChar (c : Char) : Bool :=
  c = ' ' || c = '\t' || c = '\n' || c = '\r' || c = '\x0b' || c = '\x0c'

/-- The suffix list of `normalize_name` (`engine.py` line 33), as character
lists. -/
def legalSuffixes : List (List Char) :=
  [" ltd".data, " llc".data, " inc".data, " corp".data, " limited".data,
   " holdings".data, " group".data]

/-- One iteration of the suffix loop (`engine.py` lines 34-36):
`if name.endswith(suffix): name = name[:len(name)-len(suffix)]`. -/
def stripOneSuffix (name : List Char) (suffix : List Char) : List Char :=
  if suffix.isSuffixOf name then name.take (name.length - suffix.length) else name

/-- Python `str.strip()`: drop leading and trailing whitespace. -/
def pyStrip (l : List Char) : List Char :=
  ((l.dropWhile isSpaceChar).reverse.dropWhile isSpaceChar).reverse

/-- `MiniGraphyteEngine.normalize_name` (`engine.py` lines 27-37):
lowercase, remove characters outside `\w` and `\s` (`re.sub(r'[^\w\s]', '')`),
run the suffix loop over `legalSuffixes` in order, then strip whitespace. -/
def normalize_name (s : String) : String :=
  let lowered := s.data.map Char.toLower
  let cleaned := lowered.filter (fun c => isWordChar c || isSpaceChar c)
  let stripped := legalSuffixes.foldl stripOneSuffix cleaned
  ⟨pyStrip stripped⟩

/-- `np.max` over a probability row (`engine.py` line 141).  Modelled as a
fold with default `0`; for the nonempty, nonnegative rows produced by
`predict_proba` this is the maximum entry. -/
def npMax (l : List ℚ) : ℚ := l.foldr max 0

/-- Round-half-even to an integer, the rounding mode of Python's `round`. -/
def roundHalfEven (x : ℚ) : ℤ :=
  if Int.fract x < 1/2 then ⌊x⌋
  else if 1/2 < Int.fract x then ⌊x⌋ + 1
  else if ⌊x⌋ % 2 = 0 then ⌊x⌋ else ⌊x⌋ + 1

/-- Python `round(x, 2)` (`engine.py` line 155), on the exact-rational model
of the float. -/
def pyRound2 (x : ℚ) : ℚ := (roundHalfEven (x * 100) : ℚ) / 100

/-- `fetch_live_news` (`engine.py` lines 60-86).  The outcome of the DDGS
network call is the `Except` parameter: an exception is caught and turned
into `[]` (lines 82-84), otherwise the retrieved article list is returned. -/
def fetch_live_news (fetched : Except String (List Article)) : List Article :=
  match fetched with
  | .error _ => []
  | .ok articles => articles

/-- The classification input for one article (`engine.py` line 134):
`a['snippet'] + " " + a['headline']`. -/
def mkSnippetText (a : Article) : String := a.snippet ++ " " ++ a.headline

/-- The per-article loop body of `analyze_entity` (`engine.py` lines
139-156), applied to one `(article, predictions[idx], probs[idx])` triple:
confidence is the row maximum, labels with confidence `< 0.55` are
overridden to `neutral`, the snippet is truncated to 200 characters with
`"..."` appended, and the stored confidence is rounded to 2 decimals. -/
def mkEvidence (x : Article × String × List ℚ) : EvidenceItem :=
  let confidence := npMax x.2.2
  let pred := if confidence < 0.55 then "neutral" else x.2.1
  { headline := x.1.headline
    snippet := ⟨x.1.snippet.data.take 200⟩ ++ "..."
    source := x.1.source
    date := x.1.date
    url := x.1.url
    predicted_risk := pred
    confidence := pyRound2 confidence }

/-- Pair each raw article with its prediction and probability row
(`engine.py` lines 134-141: `predictions[idx]`, `probs[idx]`); sklearn
returns one entry per input, so the zip is length-preserving. -/
def zipArticles (E : Engine) (raw : List Article) : List (Article × String × List ℚ) :=
  let snippets := raw.map mkSnippetText
  raw.zip ((E.predict snippets).zip (E.predict_proba snippets))

/-- The filter `[e for e in evidence if e['predicted_risk'] != 'neutral']`
(`engine.py` line 95). -/
def riskArticles (evidence : List EvidenceItem) : List EvidenceItem :=
  evidence.filter (fun e => e.predicted_risk ≠ "neutral")

/-- `np.mean` of the confidences of a list of evidence items
(`engine.py` line 100). -/
def avgConf (l : List EvidenceItem) : ℚ := (l.map (·.confidence)).sum / l.length

/-- `min(np.log(count + 1) / 2.5, 1.0)` (`engine.py` line 102). -/
noncomputable def volumeScore (count : ℕ) : ℝ :=
  min (Real.log ((count : ℝ) + 1) / 2.5) 1.0

/-- Python `int()` applied to a float: truncation toward zero. -/
noncomputable def pyInt (x : ℝ) : ℤ := if 0 ≤ x then ⌊x⌋ else ⌈x⌉

/-- `MiniGraphyteEngine.calculate_risk_score` (`engine.py` lines 88-106). -/
noncomputable def calculate_risk_score (evidence : List EvidenceItem) : ℤ :=
  if evidence = [] then 0
  else
    let risk_articles := riskArticles evidence
    if risk_articles = [] then 0
    else
      let avg_conf := avgConf risk_articles
      let count := risk_articles.length
      let volume_score := volumeScore count
      let recency_score : ℝ := 0.8
      let raw_score : ℝ := (avg_conf : ℝ) * 0.5 + volume_score * 0.3 + recency_score * 0.2
      pyInt (min (raw_score * 100) 100)

/-- One update of the `typology_counts` dict (`engine.py` line 160):
`typology_counts[k] = typology_counts.get(k, 0) + 1`, with Python-dict
insertion order modelled by an association list. -/
def bump (counts : List (String × ℕ)) (k : String) : List (String × ℕ) :=
  match counts with
  | [] => [(k, 1)]
  | (k', n) :: rest => if k' = k then (k', n + 1) :: rest else (k', n) :: bump rest k

/-- The `typology_counts` dict after the classification loop
(`engine.py` lines 159-160): one `bump` per non-neutral evidence item, in
classification order. -/
def typologyCounts (evidence : List EvidenceItem) : List (String × ℕ) :=
  evidence.foldl
    (fun acc e => if e.predicted_risk ≠ "neutral" then bump acc e.predicted_risk else acc) []

/-- The comparison used by
`sorted(typology_counts.items(), key=lambda x: x[1], reverse=True)`
(`engine.py` line 166): Python's sort is stable, and `reverse=True` keeps
equal-key items in insertion order, i.e. item `a` may stay before `b`
exactly when `b.2 ≤ a.2`. -/
def countDescLE (a b : String × ℕ) : Bool := b.2 ≤ a.2

/-- `top_typologies` (`engine.py` lines 166-167): keys of the counts dict,
stably sorted by descending count. -/
def topTypologies (evidence : List EvidenceItem) : List String :=
  ((typologyCounts evidence).mergeSort countDescLE).map Prod.fst

/-- `MiniGraphyteEngine.analyze_entity` (`engine.py` lines 108-174).  The
retrieval outcome is passed in as the `fetched` parameter (see
`fetch_live_news`); the trained model is the `Engine` parameter. -/
noncomputable def analyze_entity (E : Engine) (entity_name : String)
    (fetched : Except String (List Article)) : AnalysisResult :=
  let raw_articles := fetch_live_news fetched
  if raw_articles = [] then
    { entity := entity_name
      risk_score := 0
      top_typologies := []
      evidence := []
      summary := "No recent news found." }
  else
    let evidence_list := (zipArticles E raw_articles).map mkEvidence
    { entity := entity_name
      risk_score := calculate_risk_score evidence_list
      top_typologies := topTypologies evidence_list
      evidence := evidence_list
      summary := "Analyzed " ++ toString raw_articles.length ++ " articles." }

/-- The element-wise contribution vector of `explain_prediction`
(`engine.py` lines 205-211): `self.model.coef_[class_idx] * tfidf_vector`. -/
def contributions (M : LinearModel) (text : String) (class_idx : ℕ) : List ℚ :=
  (M.coef.getD class_idx []).zipWith (· * ·) (M.tfidf text)

/-- `MiniGraphyteEngine.explain_prediction` (`engine.py` lines 192-221).
`argsort()[::-1][:4]` is modelled as an ascending merge sort of the index
range followed by reversal and `take 4`; the formatted output strings
`f"{token} (+{value:.2f})"` are modelled as `(token, value)` pairs. -/
def explain_prediction (M : LinearModel) (text_snippet : String)
    (predicted_class : String) : List (String × ℚ) :=
  if predicted_class = "neutral" then []
  else
    let class_idx := M.classes.indexOf predicted_class
    let contribs := contributions M text_snippet class_idx
    let top_indices :=
      ((List.range contribs.length).mergeSort
        (fun i j => decide (contribs.getD i 0 ≤ contribs.getD j 0))).reverse.take 4
    (top_indices.filter (fun i => decide (0 < contribs.getD i 0))).map
      (fun i => (M.feature_names.getD i "", contribs.getD i 0))

/-- The score algorithm as worded by the spec (§4.4, claim C2): filter to
non-neutral items, return 0 if none remain, otherwise
`floor(min((avg_confidence*0.5 + volume_score*0.3 + recency_score*0.2) * 100, 100))`
with `volume_score = min(ln(count+1)/2.5, 1.0)`, `recency_score = 0.8`, and
`avg_confidence` the arithmetic mean of the confidences.  Stated
independently of the source embedding so the two can be compared. -/
noncomputable def riskScore_spec (evidence : List EvidenceItem) : ℤ :=
  let nonNeutral := evidence.filter (fun e => e.predicted_risk ≠ "neutral")
  if nonNeutral = [] then 0
  else
    let avg : ℝ := ((nonNeutral.map (·.confidence)).map Rat.cast).sum / nonNeutral.length
    let volume : ℝ := min (Real.log ((nonNeutral.length : ℝ) + 1) / 2.5) 1.0
    ⌊min ((avg * 0.5 + volume * 0.3 + (0.8 : ℝ) * 0.2) * 100) 100⌋

/-- The claim's reading of the suffix rule (C4 as stated): strip exactly ONE
trailing legal-form suffix — the first matching one in list order — when the
cleaned name ends with one.  Stated from the claim's words, to be compared
with the source's loop. -/
def stripFirstMatching (name : List Char) : List Char :=
  match legalSuffixes.find? (fun suffix => suffix.isSuffixOf name) with
  | some suffix => name.take (name.length - suffix.length)
  | none => name

/-- `normalize` as the claim C4 words it: lowercase, clean, strip exactly one
trailing suffix, trim. -/
def normalize_claim (s : String) : String :=
  let lowered := s.data.map Char.toLower
  let cleaned := lowered.filter (fun c => isWordChar c || isSpaceChar c)
  ⟨pyStrip (stripFirstMatching cleaned)⟩

/-- The amended C4 description of the suffix stage: walk the ordered suffix
list once, stripping each suffix that currently terminates the name (so
several different suffixes can be removed).  Written as plain recursion, to
be compared with the source's fold. -/
def stripSuffixesRec (name : List Char) : List (List Char) → List Char
  | [] => name
  | suffix :: rest =>
      stripSuffixesRec
        (if suffix.isSuffixOf name then name.take (name.length - suffix.length) else name) rest

/-- `normalize` as amended claim C4 describes it. -/
def normalize_amended (s : String) : String :=
  let lowered := s.data.map Char.toLower
  let cleaned := lowered.filter (fun c => isWordChar c || isSpaceChar c)
  ⟨pyStrip (stripSuffixesRec cleaned legalSuffixes)⟩

/-- A concrete article used to instantiate theorems. -/
def a0 : Article :=
  { headline := "h", snippet := "s", source := "src", date := "d", url := "u" }

/-- A concrete trained-model stub: one label, one probability row whose
maximum `277/500 = 0.554` is not a multiple of `1/100`. -/
def E0 : Engine :=
  { predict := fun _ => ["fraud"]
    predict_proba := fun _ => [[277/500, 223/500]] }

/-- A 203-character body that ends in `"..."`: its first 200 characters
followed by `"..."` reproduce it exactly. -/
def b203 : String := ⟨List.replicate 200 'a' ++ ['.', '.', '.']⟩

/-- An article whose body is `b203`. -/
def a203 : Article :=
  { headline := "h", snippet := b203, source := "src", date := "d", url := "u" }

/-- A concrete fitted linear model for instantiating explainer theorems. -/
def M0 : LinearModel :=
  { classes := ["fraud", "neutral"]
    coef := [[2], [0]]
    feature_names := ["alpha"]
    tfidf := fun _ => [1/3] }

/-- Concrete evidence items used to instantiate score theorems. -/
def e06 : EvidenceItem :=
  { headline := "h", snippet := "s", source := "src", date := "d", url := "u",
    predicted_risk := "fraud", confidence := 6/10 }

def e07 : EvidenceItem :=
  { headline := "h", snippet := "s", source := "src", date := "d", url := "u",
    predicted_risk := "fraud", confidence := 7/10 }

def eNeutral : EvidenceItem :=
  { headline := "h", snippet := "s", source := "src", date := "d", url := "u",
    predicted_risk := "neutral", confidence := 9/10 }

/-- C3: when retrieval yields zero articles, or the retrieval collaborator
raises (modelled by the `Except.error` outcome, which `fetch_live_news`
catches and turns into zero articles), `analyze_entity` returns the
not-found result: risk score 0, empty evidence, empty typology list; no
retrieval error escapes. -/
theorem analyze_entity_not_found_on_empty_or_error :
    ∀ (E : Engine) (name : String),
      (∀ msg, fetch_live_news (Except.error msg) = []) ∧
      (∀ msg, analyze_entity E name (Except.error msg) =
        ⟨name, 0, [], [], "No recent news found."⟩) ∧
      analyze_entity E name (Except.ok []) =
        ⟨name, 0, [], [], "No recent news found."⟩ := by
  intro E name
  refine ⟨fun msg => rfl, fun msg => rfl, rfl⟩

set_option maxRecDepth 8192 in
/-- C10 counterexample: the evidence snippet is built as
`body[:200] + "..."`, but for a 203-character body that already ends in
`"..."` this reproduces the body, so the stored snippet is NOT always
different from the untruncated retrieved text. -/
theorem snippet_can_equal_original_body :
    (mkEvidence (a203, "fraud", [9/10])).snippet = a203.snippet ∧
    a203.snippet.length = 203 := by
  constructor
  · show (⟨a203.snippet.data.take 200⟩ : String) ++ "..." = a203.snippet
    decide
  · decide

/-- C10 (amended): every evidence snippet equals the first 200 characters
of the retrieved body with `"..."` appended (the suffix is appended even
when the body is shorter than 200 characters), and the stored snippet
coincides with the untruncated body exactly when the body has length 203
and ends in `"..."`. -/
theorem snippet_truncation_amended :
    (∀ x : Article × String × List ℚ,
        (mkEvidence x).snippet = (⟨x.1.snippet.data.take 200⟩ : String) ++ "...") ∧
    (∀ x : Article × String × List ℚ,
        (mkEvidence x).snippet = x.1.snippet ↔
          x.1.snippet.length = 203 ∧ x.1.snippet.data.drop 200 = ['.', '.', '.']) := by
  constructor
  · intro x; rfl
  · intro x
    show (⟨x.1.snippet.data.take 200⟩ : String) ++ "..." = x.1.snippet ↔ _
    have hdata : ((⟨x.1.snippet.data.take 200⟩ : String) ++ "...").data
        = x.1.snippet.data.take 200 ++ ['.', '.', '.'] := by
      simp [String.data_append]
    constructor
    · intro h
      have h' : x.1.snippet.data.take 200 ++ ['.', '.', '.'] = x.1.snippet.data := by
        rw [← hdata, h]
      have hlen : (x.1.snippet.data.take 200).length + 3 = x.1.snippet.data.length := by
        simpa using congrArg List.length h'
      have hlen200 : x.1.snippet.data.length = 203 := by
        rw [List.length_take] at hlen
        omega
      have htake : (x.1.snippet.data.take 200).length = 200 := by
        rw [List.length_take]; omega
      refine ⟨hlen200, ?_⟩
      have hdl := List.drop_left (x.1.snippet.data.take 200) ['.', '.', '.']
      rw [htake] at hdl
      calc x.1.snippet.data.drop 200
          = (x.1.snippet.data.take 200 ++ ['.', '.', '.']).drop 200 := by rw [h']
        _ = ['.', '.', '.'] := hdl
    · rintro ⟨hlen, hdrop⟩
      apply String.ext
      rw [hdata]
      conv_rhs => rw [← List.take_append_drop 200 x.1.snippet.data]
      rw [hdrop]

/-- C1 counterexample: with a probability row whose maximum is
`0.554 = 277/500`, the stored confidence is `round(0.554, 2) = 0.55`,
which differs from the original maximum posterior probability. -/
theorem evidence_confidence_not_raw_posterior :
    ((analyze_entity E0 "acme" (Except.ok [a0])).evidence.map (·.confidence)) = [11/20] ∧
    npMax [277/500, 223/500] = 277/500 ∧
    (11/20 : ℚ) ≠ 277/500 := by
  refine ⟨?_, by norm_num [npMax], by norm_num⟩
  show ((zipArticles E0 (fetch_live_news (Except.ok [a0]))).map mkEvidence).map (·.confidence)
      = [11/20]
  simp only [fetch_live_news, zipArticles, E0, mkSnippetText, List.map, List.zip,
    List.zipWith, mkEvidence]
  norm_num [npMax, pyRound2, roundHalfEven, Int.fract]

/-- C1 (amended): every evidence item of an analysis arises from the
per-article classification step `mkEvidence`; any item whose raw maximum
posterior is strictly below 0.55 is relabelled `neutral` regardless of the
arg-max class; and the stored confidence equals the original pre-override
maximum posterior probability rounded to two decimal places. -/
theorem evidence_neutral_override_and_rounded_confidence :
    (∀ (E : Engine) (name : String) (fetched : Except String (List Article)),
        ∀ e ∈ (analyze_entity E name fetched).evidence,
          ∃ x ∈ zipArticles E (fetch_live_news fetched), e = mkEvidence x) ∧
    (∀ x : Article × String × List ℚ,
        npMax x.2.2 < 0.55 → (mkEvidence x).predicted_risk = "neutral") ∧
    (∀ x : Article × String × List ℚ,
        (mkEvidence x).confidence = pyRound2 (npMax x.2.2)) := by
  refine ⟨?_, ?_, ?_⟩
  · intro E name fetched e he
    unfold analyze_entity at he
    by_cases hraw : fetch_live_news fetched = []
    · simp [hraw] at he
    · simp only [hraw, if_neg, ite_false] at he
      obtain ⟨x, hx, hxe⟩ := List.mem_map.mp he
      exact ⟨x, hx, hxe.symm⟩
  · intro x h
    show (if npMax x.2.2 < 0.55 then "neutral" else x.2.1) = "neutral"
    rw [if_pos h]
  · intro x; rfl

/-- Witness for the amended C1 theorem at concrete inputs. -/
theorem evidence_neutral_override_and_rounded_confidence_witness :
    (∃ x ∈ zipArticles E0 (fetch_live_news (Except.ok [a0])),
        mkEvidence (a0, "fraud", [277/500, 223/500]) = mkEvidence x) ∧
    (mkEvidence (a0, "fraud", [(1:ℚ)/10, 2/10])).predicted_risk = "neutral" ∧
    (mkEvidence (a0, "fraud", [277/500, 223/500])).confidence = pyRound2 (npMax [277/500, 223/500]) := by
  refine ⟨?_, ?_, ?_⟩
  · apply evidence_neutral_override_and_rounded_confidence.1 E0 "acme" (Except.ok [a0])
    show mkEvidence (a0, "fraud", [277/500, 223/500])
        ∈ (analyze_entity E0 "acme" (Except.ok [a0])).evidence
    show mkEvidence (a0, "fraud", [277/500, 223/500])
        ∈ (zipArticles E0 (fetch_live_news (Except.ok [a0]))).map mkEvidence
    simp [zipArticles, fetch_live_news, E0, mkSnippetText]
  · exact evidence_neutral_override_and_rounded_confidence.2.1 _ (by norm_num [npMax])
  · exact evidence_neutral_override_and_rounded_confidence.2.2 _

/-- The spec's non-neutral filter is the source's `riskArticles`. -/
theorem spec_filter_eq (ev : List EvidenceItem) :
    ev.filter (fun e => e.predicted_risk ≠ "neutral") = riskArticles ev := rfl

/-- When no non-neutral evidence remains, the score is 0. -/
theorem calculate_risk_score_of_no_risk (ev : List EvidenceItem)
    (h : riskArticles ev = []) : calculate_risk_score ev = 0 := by
  by_cases hev : ev = [] <;> simp [calculate_risk_score, hev, h]

/-- Unfolding of the score on lists with at least one non-neutral item. -/
theorem calculate_risk_score_of_risk (ev : List EvidenceItem)
    (h : riskArticles ev ≠ []) :
    calculate_risk_score ev =
      pyInt (min ((((avgConf (riskArticles ev) : ℚ) : ℝ) * 0.5 +
        volumeScore (riskArticles ev).length * 0.3 + (0.8 : ℝ) * 0.2) * 100) 100) := by
  have hev : ev ≠ [] := by
    intro hev
    exact h (by simp [riskArticles, hev])
  simp [calculate_risk_score, hev, h]

theorem volumeScore_nonneg (n : ℕ) : 0 ≤ volumeScore n := by
  unfold volumeScore
  refine le_min ?_ (by norm_num)
  have h1 : (1:ℝ) ≤ (n : ℝ) + 1 := by
    have := Nat.cast_nonneg (α := ℝ) n
    linarith
  exact div_nonneg (Real.log_nonneg h1) (by norm_num)

theorem volumeScore_mono {n m : ℕ} (h : n ≤ m) : volumeScore n ≤ volumeScore m := by
  unfold volumeScore
  refine min_le_min ?_ le_rfl
  have hlog : Real.log ((n : ℝ) + 1) ≤ Real.log ((m : ℝ) + 1) := by
    rw [Real.log_le_log_iff (by positivity) (by positivity)]
    have : (n : ℝ) ≤ (m : ℝ) := Nat.cast_le.mpr h
    linarith
  gcongr

theorem pyInt_mono {x y : ℝ} (h : x ≤ y) : pyInt x ≤ pyInt y := by
  unfold pyInt
  by_cases hx : 0 ≤ x
  · rw [if_pos hx, if_pos (hx.trans h)]
    exact Int.floor_le_floor h
  · rw [if_neg hx]
    by_cases hy : 0 ≤ y
    · rw [if_pos hy]
      have h1 : ⌈x⌉ ≤ 0 := by
        have : x ≤ ((0 : ℤ) : ℝ) := by push_cast; linarith [lt_of_not_le hx]
        exact Int.ceil_le.mpr this
      have h2 : (0 : ℤ) ≤ ⌊y⌋ := Int.floor_nonneg.mpr hy
      omega
    · rw [if_neg hy]
      exact Int.ceil_le_ceil h

theorem pyInt_eq_floor {x : ℝ} (h : 0 ≤ x) : pyInt x = ⌊x⌋ := if_pos h

theorem avgConf_nonneg (l : List EvidenceItem) (h : ∀ e ∈ l, 0 ≤ e.confidence) :
    0 ≤ avgConf l := by
  unfold avgConf
  apply div_nonneg _ (by positivity)
  apply List.sum_nonneg
  intro x hx
  obtain ⟨e, he, rfl⟩ := List.mem_map.mp hx
  exact h e he

theorem avgConf_cast (l : List EvidenceItem) :
    ((avgConf l : ℚ) : ℝ) = ((l.map (·.confidence)).map Rat.cast).sum / l.length := by
  have hsum : (((l.map (·.confidence)).sum : ℚ) : ℝ)
      = ((l.map (·.confidence)).map Rat.cast).sum :=
    map_list_sum (Rat.castHom ℝ) _
  unfold avgConf
  push_cast [hsum]
  rfl

/-- C2: the risk score computed by the code agrees with the spec's formula
`floor(min((avg*0.5 + volume*0.3 + 0.8*0.2)*100, 100))` (returning 0 when no
non-neutral items remain), and is an integer in `[0, 100]`, for every
evidence list whose confidences lie in `[0, 1]` (the data-model invariant on
`EvidenceItem.confidence`). -/
theorem calculate_risk_score_matches_spec_and_bounded (ev : List EvidenceItem)
    (h : ∀ e ∈ ev, 0 ≤ e.confidence ∧ e.confidence ≤ 1) :
    calculate_risk_score ev = riskScore_spec ev ∧
    0 ≤ calculate_risk_score ev ∧ calculate_risk_score ev ≤ 100 := by
  by_cases hr : riskArticles ev = []
  · rw [calculate_risk_score_of_no_risk ev hr]
    refine ⟨?_, le_refl 0, by norm_num⟩
    unfold riskScore_spec
    rw [spec_filter_eq, if_pos hr]
  · have havg : (0 : ℝ) ≤ ((avgConf (riskArticles ev) : ℚ) : ℝ) := by
      have : 0 ≤ avgConf (riskArticles ev) := by
        apply avgConf_nonneg
        intro e he
        exact (h e (List.mem_filter.mp he).1).1
      exact_mod_cast this
    have hvol := volumeScore_nonneg (riskArticles ev).length
    have hraw : (0 : ℝ) ≤ (((avgConf (riskArticles ev) : ℚ) : ℝ) * 0.5 +
        volumeScore (riskArticles ev).length * 0.3 + (0.8 : ℝ) * 0.2) * 100 := by
      have h1 : (0:ℝ) ≤ ((avgConf (riskArticles ev) : ℚ) : ℝ) * 0.5 :=
        mul_nonneg havg (by norm_num)
      have h2 : (0:ℝ) ≤ volumeScore (riskArticles ev).length * 0.3 :=
        mul_nonneg hvol (by norm_num)
      nlinarith
    have hminpos : (0 : ℝ) ≤ min ((((avgConf (riskArticles ev) : ℚ) : ℝ) * 0.5 +
        volumeScore (riskArticles ev).length * 0.3 + (0.8 : ℝ) * 0.2) * 100) 100 :=
      le_min hraw (by norm_num)
    rw [calculate_risk_score_of_risk ev hr, pyInt_eq_floor hminpos]
    refine ⟨?_, Int.floor_nonneg.mpr hminpos, ?_⟩
    · unfold riskScore_spec
      rw [spec_filter_eq, if_neg hr]
      rw [avgConf_cast]
      rfl
    · have : ⌊min ((((avgConf (riskArticles ev) : ℚ) : ℝ) * 0.5 +
          volumeScore (riskArticles ev).length * 0.3 + (0.8 : ℝ) * 0.2) * 100) 100⌋
          ≤ ⌊(100 : ℝ)⌋ := Int.floor_le_floor (min_le_right _ _)
      have h100 : ⌊(100 : ℝ)⌋ = 100 := by norm_num
      omega

/-- Witness for C2 at a concrete one-item evidence list. -/
theorem calculate_risk_score_matches_spec_and_bounded_witness :
    (∀ e ∈ [e06], 0 ≤ e.confidence ∧ e.confidence ≤ 1) ∧
    (calculate_risk_score [e06] = riskScore_spec [e06] ∧
      0 ≤ calculate_risk_score [e06] ∧ calculate_risk_score [e06] ≤ 100) := by
  have h : ∀ e ∈ [e06], 0 ≤ e.confidence ∧ e.confidence ≤ 1 := by
    intro e he
    rw [List.mem_singleton] at he
    subst he
    norm_num [e06]
  exact ⟨h, calculate_risk_score_matches_spec_and_bounded [e06] h⟩

/-- C8: the risk score is monotonically non-decreasing in the average
confidence of the non-neutral items when their count is held fixed, and
monotonically non-decreasing in the count of non-neutral items when the
average confidence is held fixed (the average being nonnegative, as
confidences are). -/
theorem calculate_risk_score_monotone :
    (∀ ev ev' : List EvidenceItem,
        (riskArticles ev).length = (riskArticles ev').length →
        avgConf (riskArticles ev) ≤ avgConf (riskArticles ev') →
        calculate_risk_score ev ≤ calculate_risk_score ev') ∧
    (∀ ev ev' : List EvidenceItem,
        avgConf (riskArticles ev) = avgConf (riskArticles ev') →
        0 ≤ avgConf (riskArticles ev') →
        (riskArticles ev).length ≤ (riskArticles ev').length →
        calculate_risk_score ev ≤ calculate_risk_score ev') := by
  constructor
  · intro ev ev' hlen havg
    by_cases hr : riskArticles ev = []
    · have hr' : riskArticles ev' = [] := by
        rw [hr] at hlen
        exact List.length_eq_zero.mp hlen.symm
      rw [calculate_risk_score_of_no_risk ev hr, calculate_risk_score_of_no_risk ev' hr']
    · have hr' : riskArticles ev' ≠ [] := by
        intro h0
        rw [h0] at hlen
        exact hr (List.length_eq_zero.mp hlen)
      rw [calculate_risk_score_of_risk ev hr, calculate_risk_score_of_risk ev' hr']
      apply pyInt_mono
      refine min_le_min ?_ le_rfl
      have hcast : ((avgConf (riskArticles ev) : ℚ) : ℝ) ≤ ((avgConf (riskArticles ev') : ℚ) : ℝ) := by
        exact_mod_cast havg
      rw [hlen]
      nlinarith [volumeScore_nonneg (riskArticles ev').length]
  · intro ev ev' havg havg' hlen
    by_cases hr : riskArticles ev = []
    · rw [calculate_risk_score_of_no_risk ev hr]
      by_cases hr' : riskArticles ev' = []
      · rw [calculate_risk_score_of_no_risk ev' hr']
      · rw [calculate_risk_score_of_risk ev' hr']
        have hcast : (0:ℝ) ≤ ((avgConf (riskArticles ev') : ℚ) : ℝ) := by exact_mod_cast havg'
        have hvol := volumeScore_nonneg (riskArticles ev').length
        have hmin : (0:ℝ) ≤ min ((((avgConf (riskArticles ev') : ℚ) : ℝ) * 0.5 +
            volumeScore (riskArticles ev').length * 0.3 + (0.8 : ℝ) * 0.2) * 100) 100 := by
          refine le_min ?_ (by norm_num)
          nlinarith
        rw [pyInt_eq_floor hmin]
        exact Int.floor_nonneg.mpr hmin
    · have hr' : riskArticles ev' ≠ [] := by
        intro h0
        rw [h0] at hlen
        simp at hlen
        exact hr hlen
      rw [calculate_risk_score_of_risk ev hr, calculate_risk_score_of_risk ev' hr']
      apply pyInt_mono
      refine min_le_min ?_ le_rfl
      have hvol := volumeScore_mono hlen
      rw [havg]
      nlinarith
/-- Witness for C8: fixed count with increasing average, and fixed average
with increasing count, at concrete evidence lists. -/
theorem calculate_risk_score_monotone_witness :
    ((riskArticles [e06]).length = (riskArticles [e07]).length ∧
      avgConf (riskArticles [e06]) ≤ avgConf (riskArticles [e07]) ∧
      calculate_risk_score [e06] ≤ calculate_risk_score [e07]) ∧
    (avgConf (riskArticles [e06]) = avgConf (riskArticles [e06, e06]) ∧
      0 ≤ avgConf (riskArticles [e06, e06]) ∧
      (riskArticles [e06]).length ≤ (riskArticles [e06, e06]).length ∧
      calculate_risk_score [e06] ≤ calculate_risk_score [e06, e06]) := by
  have hrisk1 : riskArticles [e06] = [e06] := by
    simp [riskArticles, e06]
  have hrisk2 : riskArticles [e07] = [e07] := by
    simp [riskArticles, e07]
  have hrisk3 : riskArticles [e06, e06] = [e06, e06] := by
    simp [riskArticles, e06]
  have h1 : (riskArticles [e06]).length = (riskArticles [e07]).length := by
    rw [hrisk1, hrisk2]
    rfl
  have h2 : avgConf (riskArticles [e06]) ≤ avgConf (riskArticles [e07]) := by
    rw [hrisk1, hrisk2]
    norm_num [avgConf, e06, e07]
  have h3 : avgConf (riskArticles [e06]) = avgConf (riskArticles [e06, e06]) := by
    rw [hrisk1, hrisk3]
    norm_num [avgConf, e06]
  have h4 : 0 ≤ avgConf (riskArticles [e06, e06]) := by
    rw [hrisk3]
    norm_num [avgConf, e06]
  have h5 : (riskArticles [e06]).length ≤ (riskArticles [e06, e06]).length := by
    rw [hrisk1, hrisk3]
    norm_num
  exact ⟨⟨h1, h2, calculate_risk_score_monotone.1 [e06] [e07] h1 h2⟩,
    ⟨h3, h4, h5, calculate_risk_score_monotone.2 [e06] [e06, e06] h3 h4 h5⟩⟩

/-- The index comparison used in `explain_prediction` is transitive. -/
theorem contribTrans (c : List ℚ) :
    ∀ a b d : ℕ, decide (c.getD a 0 ≤ c.getD b 0) → decide (c.getD b 0 ≤ c.getD d 0) →
      decide (c.getD a 0 ≤ c.getD d 0) := by
  intro a b d hab hbd
  simp only [decide_eq_true_iff] at *
  exact hab.trans hbd

/-- The index comparison used in `explain_prediction` is total. -/
theorem contribTotal (c : List ℚ) :
    ∀ a b : ℕ, decide (c.getD a 0 ≤ c.getD b 0) || decide (c.getD b 0 ≤ c.getD a 0) := by
  intro a b
  simp only [Bool.or_eq_true, decide_eq_true_iff]
  exact le_total _ _

/-- C6: the explainer returns the empty sequence for the neutral class; in
every case it returns at most 4 entries, every returned entry has a strictly
positive contribution (the coefficient × tf-idf product for its token), and
the entries are sorted by contribution in descending order. -/
theorem explain_prediction_spec :
    (∀ (M : LinearModel) (text : String), explain_prediction M text "neutral" = []) ∧
    (∀ (M : LinearModel) (text cls : String), (explain_prediction M text cls).length ≤ 4) ∧
    (∀ (M : LinearModel) (text cls : String), ∀ p ∈ explain_prediction M text cls, 0 < p.2) ∧
    (∀ (M : LinearModel) (text cls : String),
        (explain_prediction M text cls).Pairwise (fun p q => q.2 ≤ p.2)) := by
  refine ⟨fun M text => rfl, ?_, ?_, ?_⟩
  · intro M text cls
    by_cases hcls : cls = "neutral"
    · simp [explain_prediction, hcls]
    · simp only [explain_prediction, if_neg hcls, List.length_map]
      calc (((((List.range (contributions M text (M.classes.indexOf cls)).length).mergeSort
                (fun i j => decide ((contributions M text (M.classes.indexOf cls)).getD i 0 ≤
                  (contributions M text (M.classes.indexOf cls)).getD j 0))).reverse.take 4).filter
                (fun i => decide (0 < (contributions M text (M.classes.indexOf cls)).getD i 0)))).length
          ≤ ((((List.range (contributions M text (M.classes.indexOf cls)).length).mergeSort
                (fun i j => decide ((contributions M text (M.classes.indexOf cls)).getD i 0 ≤
                  (contributions M text (M.classes.indexOf cls)).getD j 0))).reverse.take 4)).length :=
            List.length_filter_le _ _
        _ ≤ 4 := List.length_take_le _ _
  · intro M text cls p hp
    by_cases hcls : cls = "neutral"
    · rw [hcls] at hp
      simp [explain_prediction] at hp
    · simp only [explain_prediction, if_neg hcls] at hp
      obtain ⟨i, hi, rfl⟩ := List.mem_map.mp hp
      have := (List.mem_filter.mp hi).2
      simpa using this
  · intro M text cls
    by_cases hcls : cls = "neutral"
    · simp [explain_prediction, hcls]
    · simp only [explain_prediction, if_neg hcls]
      apply List.pairwise_map.mpr
      apply List.Pairwise.sublist (List.filter_sublist _)
      apply List.Pairwise.sublist (List.take_sublist _ _)
      apply List.pairwise_reverse.mpr
      have hs := List.sorted_mergeSort (contribTrans (contributions M text (M.classes.indexOf cls)))
        (contribTotal (contributions M text (M.classes.indexOf cls)))
        (List.range (contributions M text (M.classes.indexOf cls)).length)
      apply hs.imp
      intro a b hab
      simpa using hab

/-- Witness for C6 at a concrete model: the single positive-contribution
token is returned with its contribution, which is strictly positive. -/
theorem explain_prediction_spec_witness :
    ("alpha", (2:ℚ)/3) ∈ explain_prediction M0 "x" "fraud" ∧
    (0:ℚ) < (("alpha", (2:ℚ)/3)).2 := by
  have hcon : contributions M0 "x" (M0.classes.indexOf "fraud") = [2/3] := by
    show ([(2:ℚ)]).zipWith (· * ·) [1/3] = [2/3]
    norm_num
  have hm : explain_prediction M0 "x" "fraud" = [("alpha", 2/3)] := by
    simp only [explain_prediction, if_neg (by decide : ¬("fraud" = "neutral")), hcon]
    norm_num [List.range_succ, List.filter]
    decide
  have hmem : ("alpha", (2:ℚ)/3) ∈ explain_prediction M0 "x" "fraud" := by
    rw [hm]
    simp
  exact ⟨hmem, explain_prediction_spec.2.2.1 M0 "x" "fraud" _ hmem⟩

/-- `Char.ofNat` round-trips on small scalar values. -/
theorem toNat_ofNat_small (n : ℕ) (h : n < 55296) : (Char.ofNat n).toNat = n := by
  unfold Char.ofNat
  rw [dif_pos (Or.inl h)]
  simp [Char.ofNatAux, Char.toNat, UInt32.toNat]

/-- Lowercasing a character is idempotent. -/
theorem charToLower_idem (c : Char) : c.toLower.toLower = c.toLower := by
  unfold Char.toLower
  by_cases h : c.toNat ≥ 65 ∧ c.toNat ≤ 90
  · rw [if_pos h]
    have ht : (Char.ofNat (c.toNat + 32)).toNat = c.toNat + 32 :=
      toNat_ofNat_small _ (by omega)
    rw [if_neg (by rw [ht]; omega)]
  · rw [if_neg h, if_neg h]

/-- `pyStrip` is a leading `dropWhile` followed by Mathlib's `rdropWhile`. -/
theorem pyStrip_eq (l : List Char) :
    pyStrip l = List.rdropWhile isSpaceChar (l.dropWhile isSpaceChar) := rfl

/-- The result of `pyStrip` is a sublist of the input. -/
theorem pyStrip_sublist (l : List Char) : (pyStrip l).Sublist l := by
  rw [pyStrip_eq]
  exact ((List.rdropWhile_prefix _ _).sublist).trans (List.dropWhile_sublist _)

/-- A leading `dropWhile` after the two-sided strip is the identity. -/
theorem dropWhile_pyStrip (l : List Char) :
    (pyStrip l).dropWhile isSpaceChar = pyStrip l := by
  rw [pyStrip_eq, List.dropWhile_eq_self_iff]
  intro hl
  have hpre := List.rdropWhile_prefix isSpaceChar (l.dropWhile isSpaceChar)
  have h0 : 0 < (l.dropWhile isSpaceChar).length := lt_of_lt_of_le hl hpre.length_le
  have hsame : (List.rdropWhile isSpaceChar (l.dropWhile isSpaceChar)).get ⟨0, hl⟩
      = (l.dropWhile isSpaceChar).get ⟨0, h0⟩ := by
    have hg := hpre.getElem hl
    simpa [List.get_eq_getElem] using hg
  rw [hsame]
  exact List.dropWhile_get_zero_not isSpaceChar l h0

/-- Python's `strip` is idempotent. -/
theorem pyStrip_idem (l : List Char) : pyStrip (pyStrip l) = pyStrip l := by
  conv_lhs => rw [pyStrip_eq, dropWhile_pyStrip, pyStrip_eq]
  exact List.rdropWhile_idempotent _ _

/-- The suffix loop only ever shortens the name from the right: its result
is a sublist of the input. -/
theorem foldl_stripOneSuffix_sublist :
    ∀ (sufs : List (List Char)) (name : List Char),
      (sufs.foldl stripOneSuffix name).Sublist name := by
  intro sufs
  induction sufs with
  | nil => intro name; exact List.Sublist.refl name
  | cons s rest ih =>
      intro name
      refine (ih (stripOneSuffix name s)).trans ?_
      unfold stripOneSuffix
      by_cases h : s.isSuffixOf name
      · rw [if_pos h]
        exact List.take_sublist _ _
      · rw [if_neg h]

/-- If no suffix in the list currently terminates the name, the suffix loop
leaves it unchanged. -/
theorem foldl_stripOneSuffix_eq_self :
    ∀ (sufs : List (List Char)) (name : List Char),
      (∀ s ∈ sufs, ¬ s.isSuffixOf name) → sufs.foldl stripOneSuffix name = name := by
  intro sufs
  induction sufs with
  | nil => intro name _; rfl
  | cons s rest ih =>
      intro name h
      have hs : stripOneSuffix name s = name := by
        unfold stripOneSuffix
        rw [if_neg (h s (by simp))]
      rw [List.foldl_cons, hs]
      exact ih name (fun s' hs' => h s' (by simp [hs']))

/-- The source's suffix fold is the amended description's recursion. -/
theorem foldl_stripOneSuffix_eq_rec :
    ∀ (sufs : List (List Char)) (name : List Char),
      sufs.foldl stripOneSuffix name = stripSuffixesRec name sufs := by
  intro sufs
  induction sufs with
  | nil => intro name; rfl
  | cons s rest ih =>
      intro name
      rw [List.foldl_cons, ih (stripOneSuffix name s)]
      rfl

/-- A list all of whose characters are fixed by a function maps to itself. -/
theorem map_eq_self_of_mem {f : Char → Char} :
    ∀ {l : List Char}, (∀ c ∈ l, f c = c) → l.map f = l := by
  intro l
  induction l with
  | nil => intro _; rfl
  | cons a t ih =>
      intro h
      rw [List.map_cons, h a (by simp), ih (fun c hc => h c (by simp [hc]))]

/-- C5 counterexample: normalization is not idempotent.  On
`"x ltd llc"` the loop strips `" llc"` but leaves the newly exposed
`" ltd"` (its turn in the loop has already passed); a second application
strips it. -/
theorem normalize_name_not_idempotent :
    normalize_name (normalize_name "x ltd llc") ≠ normalize_name "x ltd llc" ∧
    normalize_name "x ltd llc" = "x ltd" ∧
    normalize_name (normalize_name "x ltd llc") = "x" := by
  refine ⟨by decide, by decide, by decide⟩

/-- C5 (amended): normalization is idempotent on every input whose
normalized form does not end with one of the legal suffixes; in general a
second application can strip further (see the counterexample). -/
theorem normalize_name_idem_of_no_trailing_suffix (s : String)
    (h : ∀ suf ∈ legalSuffixes, ¬ suf.isSuffixOf (normalize_name s).data) :
    normalize_name (normalize_name s) = normalize_name s := by
  have hdata : (normalize_name s).data
      = pyStrip (legalSuffixes.foldl stripOneSuffix
          ((s.data.map Char.toLower).filter (fun c => isWordChar c || isSpaceChar c))) := by
    simp only [normalize_name]
  have hsub1 : ((normalize_name s).data).Sublist
      ((s.data.map Char.toLower).filter (fun c => isWordChar c || isSpaceChar c)) := by
    rw [hdata]
    exact (pyStrip_sublist _).trans (foldl_stripOneSuffix_sublist _ _)
  have hlower : ∀ c ∈ (normalize_name s).data, Char.toLower c = c := by
    intro c hc
    have hc2 : c ∈ s.data.map Char.toLower :=
      (List.filter_sublist _).subset (hsub1.subset hc)
    obtain ⟨c₀, _, rfl⟩ := List.mem_map.mp hc2
    exact charToLower_idem c₀
  have hfilter : ∀ c ∈ (normalize_name s).data, (isWordChar c || isSpaceChar c) = true := by
    intro c hc
    exact (List.mem_filter.mp (hsub1.subset hc)).2
  show (⟨pyStrip (legalSuffixes.foldl stripOneSuffix
      (((normalize_name s).data.map Char.toLower).filter
        (fun c => isWordChar c || isSpaceChar c)))⟩ : String) = normalize_name s
  rw [map_eq_self_of_mem hlower]
  rw [List.filter_eq_self.mpr hfilter]
  rw [foldl_stripOneSuffix_eq_self _ _ h]
  rw [hdata, pyStrip_idem]
  rw [← hdata]

/-- Witness for the amended C5 claim at `"Acme Corp"`. -/
theorem normalize_name_idem_of_no_trailing_suffix_witness :
    (∀ suf ∈ legalSuffixes, ¬ suf.isSuffixOf (normalize_name "Acme Corp").data) ∧
    normalize_name (normalize_name "Acme Corp") = normalize_name "Acme Corp" := by
  have h : ∀ suf ∈ legalSuffixes, ¬ suf.isSuffixOf (normalize_name "Acme Corp").data := by
    decide
  exact ⟨h, normalize_name_idem_of_no_trailing_suffix "Acme Corp" h⟩

/-- C4 counterexample: the suffix loop can strip more than one suffix.  On
`"acme corp ltd"` the claim's exactly-one-suffix reading yields
`"acme corp"`, but the code strips `" ltd"` and then `" corp"`. -/
theorem normalize_name_strips_multiple_suffixes :
    normalize_name "acme corp ltd" = "acme" ∧
    normalize_claim "acme corp ltd" = "acme corp" ∧
    normalize_name "acme corp ltd" ≠ normalize_claim "acme corp ltd" := by
  refine ⟨by decide, by decide, by decide⟩

/-- C4 (amended): `normalize_name` lowercases, strips the characters
outside `\w`/`\s`, then walks the ordered suffix list once, stripping each
suffix that terminates the current name — so several suffixes can be
removed, at most one per list entry — and trims whitespace; the claim's
example `normalize("Acme Corp") == normalize("acme")` does hold. -/
theorem normalize_name_amended_description :
    (∀ s : String, normalize_name s = normalize_amended s) ∧
    normalize_name "Acme Corp" = normalize_name "acme" ∧
    normalize_name "acme corp ltd" = "acme" := by
  refine ⟨?_, by decide, by decide⟩
  intro s
  simp only [normalize_name, normalize_amended]
  rw [foldl_stripOneSuffix_eq_rec]

/-- In a pairwise-related list, two distinct members are related one way or
the other. -/
theorem pairwise_or_of_mem {α : Type} {r : α → α → Prop} :
    ∀ {l : List α}, l.Pairwise r → ∀ {x y : α}, x ∈ l → y ∈ l → x ≠ y →
      r x y ∨ r y x := by
  intro l
  induction l with
  | nil => intro _ x y hx; simp at hx
  | cons a t ih =>
      intro hp x y hx hy hne
      have hhead := (List.pairwise_cons.mp hp).1
      have htail := (List.pairwise_cons.mp hp).2
      rcases List.mem_cons.mp hx with rfl | hx'
      · rcases List.mem_cons.mp hy with rfl | hy'
        · exact absurd rfl hne
        · exact Or.inl (hhead y hy')
      · rcases List.mem_cons.mp hy with rfl | hy'
        · exact Or.inr (hhead x hx')
        · exact ih htail hx' hy' hne

/-- In a pairwise-related list (with an asymmetric relation), two members
related by `r` occur in that order: `[x, y]` is a sublist. -/
theorem pair_sublist_of_pairwise {α : Type} {r : α → α → Prop}
    (hasym : ∀ z w, r z w → r w z → False) :
    ∀ {l : List α}, l.Pairwise r → ∀ {x y : α}, x ∈ l → y ∈ l → r x y →
      [x, y].Sublist l := by
  intro l
  induction l with
  | nil => intro _ x y hx; simp at hx
  | cons a t ih =>
      intro hp x y hx hy hr
      have hhead := (List.pairwise_cons.mp hp).1
      have htail := (List.pairwise_cons.mp hp).2
      rcases List.mem_cons.mp hx with rfl | hx'
      · rcases List.mem_cons.mp hy with rfl | hy'
        · exact absurd hr (fun h => hasym _ _ h h)
        · exact (List.singleton_sublist.mpr hy').cons₂ x
      · rcases List.mem_cons.mp hy with rfl | hy'
        · exact absurd (hhead x hx') (fun h => hasym _ _ hr h)
        · exact (ih htail hx' hy' hr).cons a

/-- Two elements at increasing positions form a two-element sublist. -/
theorem pair_sublist_of_getElem {α : Type} (l : List α) {i j : ℕ}
    (hij : i < j) (hj : j < l.length) :
    [l.get ⟨i, lt_trans hij hj⟩, l.get ⟨j, hj⟩].Sublist l := by
  have hi : i < l.length := lt_trans hij hj
  have hlt : j - (i + 1) < (l.drop (i + 1)).length := by
    rw [List.length_drop]
    omega
  have hmem : l.get ⟨j, hj⟩ ∈ l.drop (i + 1) := by
    have hg : (l.drop (i + 1)).get ⟨j - (i + 1), hlt⟩ = l.get ⟨j, hj⟩ := by
      simp only [List.get_eq_getElem]
      rw [List.getElem_drop l]
      congr 1
      omega
    rw [← hg]
    exact List.get_mem _ _ _
  have h1 : [l.get ⟨i, hi⟩, l.get ⟨j, hj⟩].Sublist (l.drop i) := by
    rw [List.drop_eq_getElem_cons hi]
    exact ((List.singleton_sublist.mpr hmem).cons₂ _)
  exact h1.trans (List.drop_sublist i l)

/-- In a duplicate-free list, `[x, y]` and `[y, x]` cannot both be
sublists unless `x = y`. -/
theorem pair_sublist_asymm {α : Type} :
    ∀ {l : List α}, l.Nodup → ∀ {x y : α},
      [x, y].Sublist l → [y, x].Sublist l → x = y := by
  intro l
  induction l with
  | nil =>
      intro _ x y h1
      simp at h1
  | cons a t ih =>
      intro hn x y h1 h2
      have hna : a ∉ t := (List.nodup_cons.mp hn).1
      have hnt : t.Nodup := (List.nodup_cons.mp hn).2
      cases h1 with
      | cons _ h1' =>
          cases h2 with
          | cons _ h2' => exact ih hnt h1' h2'
          | cons₂ _ h2' =>
              exact absurd (h1'.subset (by simp)) hna
      | cons₂ _ h1' =>
          cases h2 with
          | cons _ h2' =>
              exact absurd (h2'.subset (by simp)) hna
          | cons₂ _ h2' => rfl

/-- The keys of the counts dict after a `bump`: unchanged when the key is
present, appended otherwise (Python dicts preserve insertion order). -/
theorem bump_keys (c : List (String × ℕ)) (t : String) :
    (bump c t).map Prod.fst =
      if t ∈ c.map Prod.fst then c.map Prod.fst else c.map Prod.fst ++ [t] := by
  induction c with
  | nil => simp [bump]
  | cons q rest ih =>
      obtain ⟨k, m⟩ := q
      by_cases hk : k = t
      · subst hk
        simp [bump]
      · simp only [bump, if_neg hk, List.map_cons]
        by_cases ht : t ∈ rest.map Prod.fst
        · rw [ih, if_pos ht, if_pos (by simp [ht])]
        · rw [ih, if_neg ht, if_neg ?_]
          · simp
          · simp only [List.mem_cons]
            rintro (h1 | h2)
            · exact hk h1.symm
            · exact ht h2

/-- Membership in a `bump`ed counts dict, assuming distinct keys: each entry
is an untouched old entry with a different key, or the bumped entry. -/
theorem bump_mem (t : String) :
    ∀ (c : List (String × ℕ)), (c.map Prod.fst).Nodup →
      ∀ p ∈ bump c t,
        (p.1 ≠ t ∧ p ∈ c) ∨
        (∃ n, p = (t, n + 1) ∧ ((t, n) ∈ c ∨ (n = 0 ∧ t ∉ c.map Prod.fst))) := by
  intro c
  induction c with
  | nil =>
      intro _ p hp
      simp only [bump, List.mem_singleton] at hp
      subst hp
      exact Or.inr ⟨0, rfl, Or.inr ⟨rfl, by simp⟩⟩
  | cons q rest ih =>
      obtain ⟨k, m⟩ := q
      intro hn p hp
      rw [List.map_cons, List.nodup_cons] at hn
      by_cases hk : k = t
      · subst hk
        simp only [bump, if_pos rfl] at hp
        rcases List.mem_cons.mp hp with rfl | hp'
        · exact Or.inr ⟨m, rfl, Or.inl (by simp)⟩
        · refine Or.inl ⟨?_, List.mem_cons_of_mem _ hp'⟩
          intro hpt
          exact hn.1 (hpt ▸ List.mem_map.mpr ⟨p, hp', rfl⟩)
      · simp only [bump, if_neg hk] at hp
        rcases List.mem_cons.mp hp with rfl | hp'
        · exact Or.inl ⟨hk, by simp⟩
        · rcases ih hn.2 p hp' with ⟨hne, hmem⟩ | ⟨n, rfl, hcase⟩
          · exact Or.inl ⟨hne, List.mem_cons_of_mem _ hmem⟩
          · refine Or.inr ⟨n, rfl, ?_⟩
            rcases hcase with hmem | ⟨h0, hnmem⟩
            · exact Or.inl (List.mem_cons_of_mem _ hmem)
            · refine Or.inr ⟨h0, ?_⟩
              simp only [List.map_cons, List.mem_cons]
              rintro (h1 | h2)
              · exact hk h1.symm
              · exact hnmem h2

/-- Invariant of the counts-dict fold over a list of labels: its keys are
exactly the labels seen, without duplicates, in first-occurrence order
(strictly increasing first index), and each value counts its key's
occurrences. -/
theorem foldl_bump_inv (ns : List String) :
    (∀ t, t ∈ (ns.foldl bump []).map Prod.fst ↔ t ∈ ns) ∧
    ((ns.foldl bump []).map Prod.fst).Nodup ∧
    (∀ p ∈ ns.foldl bump [], p.2 = ns.count p.1) ∧
    ((ns.foldl bump []).map Prod.fst).Pairwise
      (fun a b => ns.indexOf a < ns.indexOf b) := by
  induction ns using List.reverseRecOn with
  | nil => simp
  | append_singleton ns t ih =>
      obtain ⟨ih1, ih2, ih3, ih4⟩ := ih
      have hfold : ((ns ++ [t]).foldl bump []) = bump (ns.foldl bump []) t := by
        rw [List.foldl_append]
        rfl
      by_cases ht : t ∈ (ns.foldl bump []).map Prod.fst
      · have htns : t ∈ ns := (ih1 t).mp ht
        have hkeys : ((ns ++ [t]).foldl bump []).map Prod.fst
            = (ns.foldl bump []).map Prod.fst := by
          rw [hfold, bump_keys, if_pos ht]
        refine ⟨?_, ?_, ?_, ?_⟩
        · intro u
          rw [hkeys, ih1]
          simp only [List.mem_append, List.mem_singleton]
          constructor
          · exact Or.inl
          · rintro (h | rfl)
            · exact h
            · exact htns
        · rw [hkeys]; exact ih2
        · intro p hp
          rw [hfold] at hp
          rcases bump_mem t _ ih2 p hp with ⟨hne, hmem⟩ | ⟨n, rfl, hcase⟩
          · rw [List.count_append, ih3 p hmem]
            have : List.count p.1 [t] = 0 := by
              rw [List.count_eq_zero]
              simp [hne]
            omega
          · rcases hcase with hmem | ⟨_, hnmem⟩
            · have := ih3 (t, n) hmem
              simp only at this
              rw [List.count_append]
              simp only
              rw [← this]
              have : List.count t [t] = 1 := by simp
              omega
            · exact absurd ht hnmem
        · rw [hkeys]
          refine ih4.imp_of_mem ?_
          intro a b ha hb hr
          rw [List.indexOf_append_of_mem ((ih1 a).mp ha),
            List.indexOf_append_of_mem ((ih1 b).mp hb)]
          exact hr
      · have htns : t ∉ ns := fun h => ht ((ih1 t).mpr h)
        have hkeys : ((ns ++ [t]).foldl bump []).map Prod.fst
            = (ns.foldl bump []).map Prod.fst ++ [t] := by
          rw [hfold, bump_keys, if_neg ht]
        refine ⟨?_, ?_, ?_, ?_⟩
        · intro u
          rw [hkeys]
          simp only [List.mem_append, List.mem_singleton, ih1]
        · rw [hkeys]
          refine List.Nodup.append ih2 (by simp) ?_
          intro a ha hb
          rw [List.mem_singleton] at hb
          subst hb
          exact ht ha
        · intro p hp
          rw [hfold] at hp
          rcases bump_mem t _ ih2 p hp with ⟨hne, hmem⟩ | ⟨n, rfl, hcase⟩
          · rw [List.count_append, ih3 p hmem]
            have : List.count p.1 [t] = 0 := by
              rw [List.count_eq_zero]
              simp [hne]
            omega
          · rcases hcase with hmem | ⟨rfl, _⟩
            · exact absurd ht (fun h => h (List.mem_map.mpr ⟨(t, n), hmem, rfl⟩))
            · have hc0 : List.count t ns = 0 := List.count_eq_zero.mpr htns
              rw [List.count_append]
              simp only
              rw [hc0]
              simp
        · rw [hkeys]
          rw [List.pairwise_append]
          refine ⟨?_, by simp, ?_⟩
          · refine ih4.imp_of_mem ?_
            intro a b ha hb hr
            rw [List.indexOf_append_of_mem ((ih1 a).mp ha),
              List.indexOf_append_of_mem ((ih1 b).mp hb)]
            exact hr
          · intro a ha b hb
            rw [List.mem_singleton] at hb
            subst hb
            have hans : a ∈ ns := (ih1 a).mp ha
            rw [List.indexOf_append_of_mem hans, List.indexOf_append_of_not_mem htns]
            have h1 : ns.indexOf a < ns.length := List.indexOf_lt_length.mpr hans
            have h2 : List.indexOf b [b] = 0 := by simp
            omega

/-- The per-item counting loop builds the same dict as folding `bump` over
the non-neutral predicted labels in classification order. -/
theorem typologyCounts_eq (ev : List EvidenceItem) :
    typologyCounts ev = ((riskArticles ev).map (·.predicted_risk)).foldl bump [] := by
  suffices h : ∀ (acc : List (String × ℕ)) (l : List EvidenceItem),
      l.foldl (fun acc e =>
          if e.predicted_risk ≠ "neutral" then bump acc e.predicted_risk else acc) acc
        = ((l.filter (fun e => e.predicted_risk ≠ "neutral")).map
            (·.predicted_risk)).foldl bump acc by
    exact h [] ev
  intro acc l
  induction l generalizing acc with
  | nil => rfl
  | cons e t ih =>
      rw [List.foldl_cons, List.filter_cons]
      by_cases he : e.predicted_risk = "neutral"
      · rw [if_neg (fun h => h he), if_neg (by simp [he])]
        exact ih acc
      · rw [if_pos he, if_pos (by simp [he]), List.map_cons, List.foldl_cons]
        exact ih (bump acc e.predicted_risk)

theorem countDescLE_trans :
    ∀ a b c : String × ℕ, countDescLE a b → countDescLE b c → countDescLE a c := by
  intro a b c hab hbc
  simp only [countDescLE, decide_eq_true_iff] at *
  omega

theorem countDescLE_total : ∀ a b : String × ℕ, countDescLE a b || countDescLE b a := by
  intro a b
  simp only [countDescLE, Bool.or_eq_true, decide_eq_true_iff]
  omega

/-- C7: `top_typologies` lists exactly the typologies that have at least one
non-neutral evidence item (each at most once, never `neutral`), ordered by
descending count of non-neutral evidence items, with ties broken by the
order in which each typology is first encountered in classification order;
`analyze_entity` returns exactly this ranking of its own evidence list. -/
theorem topTypologies_spec :
    (∀ (E : Engine) (name : String) (fetched : Except String (List Article)),
        (analyze_entity E name fetched).top_typologies
          = topTypologies (analyze_entity E name fetched).evidence) ∧
    (∀ ev : List EvidenceItem,
      (∀ t, t ∈ topTypologies ev ↔
          (t ≠ "neutral" ∧ ∃ e ∈ ev, e.predicted_risk = t)) ∧
      (topTypologies ev).Nodup ∧
      (topTypologies ev).Pairwise (fun a b =>
        ((riskArticles ev).map (·.predicted_risk)).count b
            < ((riskArticles ev).map (·.predicted_risk)).count a ∨
          (((riskArticles ev).map (·.predicted_risk)).count a
              = ((riskArticles ev).map (·.predicted_risk)).count b ∧
            ((riskArticles ev).map (·.predicted_risk)).indexOf a
              < ((riskArticles ev).map (·.predicted_risk)).indexOf b))) := by
  constructor
  · intro E name fetched
    unfold analyze_entity
    by_cases hraw : fetch_live_news fetched = []
    · rw [if_pos hraw]
      show ([] : List String) = topTypologies []
      rw [topTypologies]
      show ([] : List String) = (([] : List (String × ℕ)).mergeSort countDescLE).map Prod.fst
      rw [List.mergeSort_nil]
      rfl
    · rw [if_neg hraw]
  · intro ev
    obtain ⟨inv1, inv2, inv3, inv4⟩ := foldl_bump_inv ((riskArticles ev).map (·.predicted_risk))
    have hc := typologyCounts_eq ev
    rw [← hc] at inv1 inv2 inv3 inv4
    have hperm := List.mergeSort_perm (typologyCounts ev) countDescLE
    have hcN : (typologyCounts ev).Nodup := List.Nodup.of_map _ inv2
    have hSN : ((typologyCounts ev).mergeSort countDescLE).Nodup := hperm.nodup_iff.mpr hcN
    have hsorted := List.sorted_mergeSort countDescLE_trans countDescLE_total (typologyCounts ev)
    refine ⟨?_, ?_, ?_⟩
    · intro t
      constructor
      · intro h
        obtain ⟨p, hp, rfl⟩ := List.mem_map.mp h
        have hpc : p ∈ typologyCounts ev := List.mem_mergeSort.mp hp
        have hns : p.1 ∈ (riskArticles ev).map (·.predicted_risk) :=
          (inv1 p.1).mp (List.mem_map.mpr ⟨p, hpc, rfl⟩)
        obtain ⟨e, he, heq⟩ := List.mem_map.mp hns
        have hef := List.mem_filter.mp he
        refine ⟨?_, e, hef.1, heq⟩
        intro hteq
        have hne : e.predicted_risk ≠ "neutral" := by simpa using hef.2
        exact hne (heq.trans hteq)
      · rintro ⟨htne, e, he, heq⟩
        have hef : e ∈ riskArticles ev := List.mem_filter.mpr ⟨he, by simp [heq, htne]⟩
        have htns : t ∈ (riskArticles ev).map (·.predicted_risk) :=
          List.mem_map.mpr ⟨e, hef, heq⟩
        have hkeys := (inv1 t).mpr htns
        obtain ⟨p, hpc, hpt⟩ := List.mem_map.mp hkeys
        exact List.mem_map.mpr ⟨p, List.mem_mergeSort.mpr hpc, hpt⟩
    · exact ((hperm.map Prod.fst).nodup_iff).mpr inv2
    · show (((typologyCounts ev).mergeSort countDescLE).map Prod.fst).Pairwise _
      rw [List.pairwise_map, List.pairwise_iff_getElem]
      intro i j hi hj hij
      have hmemA : ((typologyCounts ev).mergeSort countDescLE)[i] ∈ typologyCounts ev :=
        List.mem_mergeSort.mp (List.getElem_mem hi)
      have hmemB : ((typologyCounts ev).mergeSort countDescLE)[j] ∈ typologyCounts ev :=
        List.mem_mergeSort.mp (List.getElem_mem hj)
      have hcA := inv3 _ hmemA
      have hcB := inv3 _ hmemB
      have hord := (List.pairwise_iff_getElem.mp hsorted) i j hi hj hij
      have hle : (((typologyCounts ev).mergeSort countDescLE)[j]).2
          ≤ (((typologyCounts ev).mergeSort countDescLE)[i]).2 := by
        simpa [countDescLE] using hord
      rcases lt_or_eq_of_le hle with hlt | heq2
      · left
        rw [← hcA, ← hcB]
        exact hlt
      · right
        refine ⟨by rw [← hcA, ← hcB]; exact heq2.symm, ?_⟩
        have hneAB : ((typologyCounts ev).mergeSort countDescLE)[i]
            ≠ ((typologyCounts ev).mergeSort countDescLE)[j] :=
          fun h => (Nat.ne_of_lt hij) (hSN.getElem_inj_iff.mp h)
        have hkeyne : (((typologyCounts ev).mergeSort countDescLE)[i]).1
            ≠ (((typologyCounts ev).mergeSort countDescLE)[j]).1 :=
          fun h => hneAB (List.inj_on_of_nodup_map inv2 hmemA hmemB h)
        have countsPW : (typologyCounts ev).Pairwise
            (fun x y => ((riskArticles ev).map (·.predicted_risk)).indexOf x.1
              < ((riskArticles ev).map (·.predicted_risk)).indexOf y.1) :=
          (List.pairwise_map (f := Prod.fst)).mp inv4
        rcases pairwise_or_of_mem countsPW hmemA hmemB hneAB with hor | hor
        · exact hor
        · exfalso
          have hBA : [((typologyCounts ev).mergeSort countDescLE)[j],
              ((typologyCounts ev).mergeSort countDescLE)[i]].Sublist (typologyCounts ev) :=
            pair_sublist_of_pairwise (fun z w h1 h2 => absurd h2 (Nat.lt_asymm h1))
              countsPW hmemB hmemA hor
          have hBAS : [((typologyCounts ev).mergeSort countDescLE)[j],
              ((typologyCounts ev).mergeSort countDescLE)[i]].Sublist
                ((typologyCounts ev).mergeSort countDescLE) :=
            List.pair_sublist_mergeSort countDescLE_trans countDescLE_total
              (by simp [countDescLE, heq2]) hBA
          have hABS : [((typologyCounts ev).mergeSort countDescLE)[i],
              ((typologyCounts ev).mergeSort countDescLE)[j]].Sublist
                ((typologyCounts ev).mergeSort countDescLE) := by
            have hps := pair_sublist_of_getElem ((typologyCounts ev).mergeSort countDescLE) hij hj
            simpa [List.get_eq_getElem] using hps
          exact hkeyne (congrArg Prod.fst (pair_sublist_asymm hSN hABS hBAS))

/-- Witness for C7 at concrete inputs. -/
theorem topTypologies_spec_witness :
    ((analyze_entity E0 "acme" (Except.ok [a0])).top_typologies
        = topTypologies (analyze_entity E0 "acme" (Except.ok [a0])).evidence) ∧
    ("fraud" ∈ topTypologies [e06] ↔
        ("fraud" ≠ "neutral" ∧ ∃ e ∈ [e06], e.predicted_risk = "fraud")) ∧
    (topTypologies [e06]).Nodup :=
  ⟨topTypologies_spec.1 E0 "acme" (Except.ok [a0]),
    (topTypologies_spec.2 [e06]).1 "fraud",
    (topTypologies_spec.2 [e06]).2.1⟩
